import Mathlib

/-!
Verification of the nipype core utilities against their specification.

This file gives a shallow embedding, in Lean 4, of

  * `nipype/utils/ram_estimator.py` — the `RamEstimator` class
    (`clamp`, `voxels`, `__call__`);
  * `nipype/utils/filemanip.py` — `split_filename`, `fname_presuffix`,
    `hash_rename`, `check_forhash`, `copyfile`, `list_to_filename`.

Paths and Python strings are embedded as `List Char`; Python numbers
(int/float) are embedded as `ℚ` (the claims under study concern exact
order/arithmetic facts, not rounding); fallible Python code returns
`Except`.  File-system and image-reading effects (`os.path`, `shutil`,
`nibabel`) are modelled by explicit environment records whose fields
mirror the primitives the source calls.
-/

/-- A Python string / file path, embedded as a list of characters. -/
abbrev PyStr := List Char

/-- Convenience injection from Lean string literals. -/
def toL (s : String) : PyStr := s.toList

/-! ## RamEstimator (nipype/utils/ram_estimator.py) -/

/-- A Python runtime value, as far as `RamEstimator.__call__` inspects it:
`isinstance(val, str)`, `isinstance(val, (list, tuple))`,
`isinstance(val, (int, float))`, `isdefined(val)`, `val is None`,
`type(val).__name__`. -/
inductive PyVal where
  /-- Python `None`. -/
  | pyNone
  /-- the traits `Undefined` sentinel: `isdefined` returns `False` on it.
  (`isdefined` lives in `nipype.interfaces.base`, outside the sources at
  hand; it is modelled from the spec: an input is "undefined" exactly when
  it carries this sentinel.) -/
  | undef
  /-- a Python `str`. -/
  | str (s : PyStr)
  /-- a Python `int` or `float` (including `bool`, a subclass of `int`). -/
  | num (v : ℚ)
  /-- a Python `list` (`isTuple = false`) or `tuple` (`isTuple = true`). -/
  | seq (isTuple : Bool) (elems : List PyVal)
  /-- any other runtime type, recorded by its type name. -/
  | other (typeName : PyStr)

/-- The node inputs object: `inputs.traits()` key set and
`getattr(inputs, attr, None)` (an absent attribute yields `pyNone`). -/
structure NodeInputs where
  traits : List PyStr
  attr : PyStr → PyVal

/-- The file-system / image-reading environment seen by the estimator:
`os.path.exists` and `nib.load(path).header.get_data_shape()`.
`shape p = none` models a path that exists but cannot be read as an
image (the `except Exception: continue` branch) or does not exist. -/
structure ImgEnv where
  pathExists : PyStr → Bool
  shape : PyStr → Option (List ℕ)

/-- `RamEstimator.voxels`: `math.prod(shape[:3])` — the number of spatial
voxels, ignoring a possible fourth (time) dimension; `none` when
`nib.load` fails. -/
def voxels (env : ImgEnv) (p : PyStr) : Option ℕ :=
  match env.shape p with
  | some s => some ((s.take 3).prod)
  | none => none

/-- `RamEstimator.clamp(value, min_val, max_val)`:
sequentially `value = max(min_val, value)` when `min_val` is not `None`,
then `value = min(max_val, value)` when `max_val` is not `None`. -/
def clamp (value : ℚ) (min_val max_val : Option ℚ) : ℚ :=
  let v1 := match min_val with
    | some m => max m value
    | none => value
  match max_val with
  | some m => min m v1
  | none => v1

/-- The estimator configuration (`__init__` fields).  `input_multipliers`
is an insertion-ordered `dict`, embedded as an association list; the
constructor defaults are `overhead_gb = 0.3`, `min_gb = 0.5`,
`max_gb = 8.0` (values of `none` model an explicit `None`, which
`clamp` accepts). -/
structure RamEstimator where
  input_multipliers : List (PyStr × ℚ)
  overhead_gb : ℚ
  min_gb : Option ℚ
  max_gb : Option ℚ

/-- One line of the human-readable debug trail.  The source renders each
constructor with an f-string; only the line kind and the numeric payload
matter to the spec (its exact wording is explicitly not a contract). -/
inductive DebugLine where
  /-- f-string: attr: trait not found -/
  | traitNotFound (attr : PyStr)
  /-- f-string: attr: undefined -/
  | undefinedVal (attr : PyStr)
  /-- f-string: attr: voxels=…, multiplier=…, contribution=… GB -/
  | voxelsLine (attr : PyStr) (vox : ℕ) (mult contribution : ℚ)
  /-- f-string: attr: no readable image files -/
  | noReadable (attr : PyStr)
  /-- f-string: attr: values=…, multiplier=…, contribution=… GB -/
  | valuesLine (attr : PyStr) (vals : List ℚ) (mult contribution : ℚ)
  /-- f-string: attr: unsupported value type (…) -/
  | unsupportedLine (attr : PyStr) (typeName : PyStr)
  /-- f-string: Overhead=… GB, total estimated RAM=… GB -/
  | overheadLine (overhead total : ℚ)
  /-- f-string: Clamp=… GB -/
  | clampLine (v : ℚ)
deriving DecidableEq

/-- `isinstance(v, str)`. -/
def isStrVal : PyVal → Bool
  | .str _ => true
  | _ => false

/-- Extract the string from a `str` value. -/
def getStr : PyVal → Option PyStr
  | .str s => some s
  | _ => none

/-- `isinstance(v, (int, float))`. -/
def isNumVal : PyVal → Bool
  | .num _ => true
  | _ => false

/-- Extract the number from a numeric value. -/
def getNum : PyVal → Option ℚ
  | .num q => some q
  | _ => none

/-- `not isdefined(val) or val is None`. -/
def isUndefOrNone : PyVal → Bool
  | .undef => true
  | .pyNone => true
  | _ => false

/-- `type(val).__name__`, for the unsupported-type trail line (only ever
reached by `list`/`tuple` values with no strings and not all numbers, and
by `other` values; the remaining cases are unreachable there). -/
def typeNameOf : PyVal → PyStr
  | .pyNone => toL ("NoneType")
  | .undef => toL ("_Undefined")
  | .str _ => toL ("str")
  | .num _ => toL ("float")
  | .seq true _ => toL ("tuple")
  | .seq false _ => toL ("list")
  | .other t => t

/-- The file-scanning loop of `__call__`: for each path, if it exists and
loads as an image, add its voxel count and count it as a valid file;
otherwise skip it.  Returns `(vox_total, valid_files)`. -/
def scanFiles (env : ImgEnv) : List PyStr → ℕ × ℕ
  | [] => (0, 0)
  | p :: ps =>
    let rest := scanFiles env ps
    if env.pathExists p then
      match env.shape p with
      | some s => ((s.take 3).prod + rest.1, 1 + rest.2)
      | none => rest
    else rest

/-- The file-like classification of `__call__`: a single `str` gives a
one-element path list; a `list`/`tuple` containing at least one `str`
gives its string elements; anything else is not file-like. -/
def classifyPaths : PyVal → Option (List PyStr)
  | .str s => some [s]
  | .seq _ vs => if vs.any isStrVal then some (vs.filterMap getStr) else none
  | _ => none

/-- The numeric classification of `__call__`: a single `int`/`float`, or a
`list`/`tuple` all of whose elements are `int`/`float` (vacuously true for
the empty sequence). -/
def classifyNums : PyVal → Option (List ℚ)
  | .num q => some [q]
  | .seq _ vs => if vs.all isNumVal then some (vs.filterMap getNum) else none
  | _ => none

/-- One iteration of the `for attr, multiplier in self.input_multipliers`
loop of `__call__`: returns the attribute's GB contribution and its trail
line. -/
def processAttr (env : ImgEnv) (inputs : NodeInputs) (attr : PyStr) (mult : ℚ) :
    ℚ × DebugLine :=
  if ¬ inputs.traits.contains attr then (0, .traitNotFound attr)
  else
    let val := inputs.attr attr
    if isUndefOrNone val then (0, .undefinedVal attr)
    else
      match classifyPaths val with
      | some paths =>
        let scanned := scanFiles env paths
        if 0 < scanned.2 then
          let contribution := (scanned.1 : ℚ) * mult / 1024 ^ 3
          (contribution, .voxelsLine attr scanned.1 mult contribution)
        else (0, .noReadable attr)
      | none =>
        match classifyNums val with
        | some vals =>
          let contribution := vals.sum * mult
          (contribution, .valuesLine attr vals mult contribution)
        | none => (0, .unsupportedLine attr (typeNameOf val))

/-- `RamEstimator.__call__`: accumulate contributions and trail lines over
the declared multipliers in order, add the overhead line, clamp, add the
clamp line.  The source finally joins the lines with a fixed delimiter;
the trail is kept as a list here since its wording is not a contract. -/
def callRam (est : RamEstimator) (env : ImgEnv) (inputs : NodeInputs) :
    ℚ × List DebugLine :=
  let acc := est.input_multipliers.foldl
    (fun acc am =>
      let r := processAttr env inputs am.1 am.2
      (acc.1 + r.1, acc.2 ++ [r.2])) ((0 : ℚ), ([] : List DebugLine))
  let mem0 := acc.1 + est.overhead_gb
  let lines := acc.2 ++ [DebugLine.overheadLine est.overhead_gb mem0]
  let mem := clamp mem0 est.min_gb est.max_gb
  (mem, lines ++ [DebugLine.clampLine mem])

/-- The unclamped total of `__call__`: `total_gb + overhead_gb` just
before the clamp. -/
def rawTotal (est : RamEstimator) (env : ImgEnv) (inputs : NodeInputs) : ℚ :=
  (est.input_multipliers.foldl
    (fun t am => t + (processAttr env inputs am.1 am.2).1) 0) + est.overhead_gb

/-- The `mem_gb` component of the result of `__call__`. -/
def memEstimate (est : RamEstimator) (env : ImgEnv) (inputs : NodeInputs) : ℚ :=
  (callRam est env inputs).1

/-- The number of voxels one path adds to `vox_total` in the scanning
loop: its spatial voxel count when it exists and is image-readable, and
`0` when it is skipped. -/
def voxCount (env : ImgEnv) (p : PyStr) : ℕ :=
  if env.pathExists p then
    match env.shape p with
    | some s => (s.take 3).prod
    | none => 0
  else 0

/-- An environment with no files at all. -/
def envEmpty : ImgEnv := ⟨fun _ => false, fun _ => none⟩

/-- A node-inputs object with no traits. -/
def inputsEmpty : NodeInputs := ⟨[], fun _ => PyVal.pyNone⟩

/-- A configuration with no weights, overhead 2 GB, bounds [1/2, 8]. -/
def estNoWeights : RamEstimator := ⟨[], 2, some (1/2), some 8⟩

/-- A configuration with no weights, overhead 2 GB and the degenerate
bounds min_gb = max_gb = 1 (allowed by `min_gb <= max_gb`). -/
def estDegenerate : RamEstimator := ⟨[], 2, some 1, some 1⟩

/-- A node-inputs object whose only trait `iters` holds an empty list. -/
def inputsEmptyList : NodeInputs :=
  ⟨[toL ("iters")], fun a => if a = toL ("iters") then PyVal.seq false [] else PyVal.pyNone⟩

/-- A configuration whose single weight `iterations` has the (legal)
negative multiplier -1. -/
def estNegWeight : RamEstimator := ⟨[(toL ("iterations"), -1)], 3/10, some (1/2), some 8⟩

/-- Same single weight with the positive multiplier 1/100. -/
def estPosWeight : RamEstimator := ⟨[(toL ("iterations"), 1/100)], 3/10, some (1/2), some 8⟩

/-- Inputs where `iterations = 1`. -/
def inputsIterA : NodeInputs :=
  ⟨[toL ("iterations")], fun a => if a = toL ("iterations") then PyVal.num 1 else PyVal.pyNone⟩

/-- Inputs where `iterations = 2`. -/
def inputsIterB : NodeInputs :=
  ⟨[toL ("iterations")], fun a => if a = toL ("iterations") then PyVal.num 2 else PyVal.pyNone⟩

/-- A configuration with a single file-like weight `in_file`, multiplier 32. -/
def estOneFile : RamEstimator := ⟨[(toL ("in_file"), 32)], 3/10, some (1/2), some 8⟩

/-- Inputs whose only trait `in_file` names the image `vol.nii`. -/
def inputsOneFile : NodeInputs :=
  ⟨[toL ("in_file")], fun a => if a = toL ("in_file") then PyVal.str (toL ("vol.nii")) else PyVal.pyNone⟩

/-- An environment where `vol.nii` is a readable 10x10x10 image. -/
def envVolSmall : ImgEnv :=
  ⟨fun p => p == toL ("vol.nii"), fun p => if p = toL ("vol.nii") then some [10, 10, 10] else none⟩

/-- The same environment with `vol.nii` grown to 20x10x10. -/
def envVolLarge : ImgEnv :=
  ⟨fun p => p == toL ("vol.nii"), fun p => if p = toL ("vol.nii") then some [20, 10, 10] else none⟩

/-! ## Path splitting and joining (nipype/utils/filemanip.py, posixpath) -/

/-- `os.path.split(p)` (posix): cut after the last slash; the head keeps
its trailing slashes only when it consists of slashes alone
(`if head and head != sep*len(head): head = head.rstrip(sep)`). -/
def osSplit (p : PyStr) : PyStr × PyStr :=
  let rev := p.reverse
  let tail := (rev.takeWhile (fun c => c != '/')).reverse
  let headRaw := (rev.dropWhile (fun c => c != '/')).reverse
  let head :=
    if headRaw ≠ [] ∧ headRaw.any (fun c => c != '/') then
      (headRaw.reverse.dropWhile (fun c => c == '/')).reverse
    else headRaw
  (head, tail)

/-- `os.path.splitext(p)` (genericpath._splitext with sep = '/',
extsep = '.'): split at the last dot, provided it comes after the last
slash and at least one non-dot character stands between them (so leading
dots of the basename never start an extension). -/
def splitext (p : PyStr) : PyStr × PyStr :=
  let rev := p.reverse
  let a := rev.takeWhile (fun c => c != '.')
  let b := rev.dropWhile (fun c => c != '.')
  match b with
  | [] => (p, [])
  | _ :: rest =>
    if a.all (fun c => c != '/') &&
        (rest.takeWhile (fun c => c != '/')).any (fun c => c != '.') then
      (rest.reverse, '.' :: a.reverse)
    else (p, [])

/-- The `while tmp: fname, tmp = splitext(fname)` loop of
`split_filename`, accumulating the stripped suffixes (reversal and
re-concatenation included).  `fuel` bounds the iteration count; each
splitting step strictly shortens the name, so `length + 1` fuel is never
exhausted and the fallback `(fname, [])` is unreachable. -/
def extLoopF : ℕ → PyStr → PyStr × PyStr
  | 0, fname => (fname, [])
  | fuel + 1, fname =>
    let se := splitext fname
    if se.2 = [] then (fname, [])
    else
      let r := extLoopF fuel se.1
      (r.1, r.2 ++ se.2)

/-- `split_filename(fname)`: directory part, then the stem and the full
(possibly multi-dot) extension of the basename. -/
def split_filename (fname : PyStr) : PyStr × PyStr × PyStr :=
  let ps := osSplit fname
  let se := extLoopF (ps.2.length + 1) ps.2
  (ps.1, se.1, se.2)

/-- `os.path.join(a, b)` (posix, two arguments): `b` if absolute,
otherwise `a` and `b` glued with a single separator unless `a` is empty
or already ends in one. -/
def osJoin (a b : PyStr) : PyStr :=
  if b.head? = some '/' then b
  else if a = [] ∨ a.getLast? = some '/' then a ++ b
  else a ++ '/' :: b

/-- `posixpath.normpath(path)`: collapse empty and `.` components,
resolve `..` against preceding components, and keep the POSIX one-or-two
leading-slash distinction. -/
def normpath (p : PyStr) : PyStr :=
  if p = [] then ['.']
  else
    let initialSlashes : ℕ :=
      if p.take 1 = ['/'] then
        (if p.take 2 = ['/', '/'] ∧ p.take 3 ≠ ['/', '/', '/'] then 2 else 1)
      else 0
    let comps := List.splitOn '/' p
    let newComps := comps.foldl
      (fun acc comp =>
        if comp = [] ∨ comp = ['.'] then acc
        else if comp ≠ ['.', '.'] ∨ (initialSlashes = 0 ∧ acc = []) ∨
            (acc ≠ [] ∧ acc.getLast? = some ['.', '.']) then
          acc ++ [comp]
        else if acc ≠ [] then acc.dropLast
        else acc) []
    let joined := List.replicate initialSlashes '/' ++ List.intercalate ['/'] newComps
    if joined = [] then ['.'] else joined

/-- `posixpath.isabs`. -/
def isabs (p : PyStr) : Bool := p.take 1 = ['/']

/-- `os.path.abspath(p)`: join against the (explicitly passed) current
working directory when relative, then normalize. -/
def abspath (cwd p : PyStr) : PyStr :=
  normpath (if isabs p then p else osJoin cwd p)

/-- `fname_presuffix(fname, prefix, suffix, newpath, use_ext)`: rebuild
`join(pth, prefix + stem + suffix + ext)`, dropping the extension when
`use_ext` is false and replacing `pth` by `abspath(newpath)` when
`newpath` is truthy (Python's `if newpath:` — an empty string counts as
no newpath). -/
def fname_presuffix (cwd fname pfx sfx : PyStr) (newpath : Option PyStr)
    (use_ext : Bool) : PyStr :=
  let s := split_filename fname
  let ext := if use_ext then s.2.2 else []
  let pth := match newpath with
    | some np => if np ≠ [] then abspath cwd np else s.1
    | none => s.1
  osJoin pth (pfx ++ s.2.1 ++ sfx ++ ext)

/-- The "normalized original path" of the spec: the directory and
basename produced by the standard split, recombined by the standard
join.  It differs from the original only by collapsing redundant
trailing separators of the directory part. -/
def normalizePath (p : PyStr) : PyStr := osJoin (osSplit p).1 (osSplit p).2

/-! ## Cache tokens (hash_rename / check_forhash) -/

/-- Membership in the regex character class `[a-z0-9]`. -/
def isTokChar (c : Char) : Bool := ('a' ≤ c && c ≤ 'z') || ('0' ≤ c && c ≤ '9')

/-- An anchored match of the regex `(_0x[a-z0-9]{32})` at the head of the
input: the literal `_0x` followed by exactly 32 class characters. -/
def hashMatchAt : PyStr → Option PyStr
  | c1 :: c2 :: c3 :: rest =>
    if c1 = '_' ∧ c2 = '0' ∧ c3 = 'x' ∧
        (rest.take 32).length = 32 ∧ (rest.take 32).all isTokChar then
      some (c1 :: c2 :: c3 :: rest.take 32)
    else none
  | _ => none

/-- `re.findall('(_0x[a-z0-9]{32})', l)`: scan left to right; after a
match (always 35 characters long) resume right after it, otherwise
advance one character. -/
def reFindAll : PyStr → List PyStr
  | [] => []
  | c :: rest =>
    match hashMatchAt (c :: rest) with
    | some m => m :: reFindAll (rest.drop 34)
    | none => reFindAll rest
termination_by l => l.length
decreasing_by
  all_goals (simp [List.length_drop]; try omega)

/-- Python exceptions surfaced by the filemanip helpers. -/
inductive PyErr where
  | indexError
deriving DecidableEq

/-- The `str`-or-`list` argument shape accepted by `check_forhash` (and
returned by `list_to_filename`). -/
inductive StrOrList where
  | str (s : PyStr)
  | strlist (l : List PyStr)
deriving DecidableEq

/-- The body of `check_forhash` on a single string: split off the
directory, scan the name for the token pattern, and return
`(True, all matches)` or `(False, None)`.  (`re.search` is truthy
exactly when `re.findall` is non-empty, so the single scan models
both calls.) -/
def check_forhashStr (f : PyStr) : Bool × Option (List PyStr) :=
  let name := (osSplit f).2
  let ms := reFindAll name
  if ms.isEmpty then (false, none) else (true, some ms)

/-- `check_forhash(filename)`: a list argument is replaced by its first
element (`filename[0]` — an IndexError on an empty list). -/
def check_forhash (filename : StrOrList) : Except PyErr (Bool × Option (List PyStr)) :=
  match filename with
  | .strlist l =>
    match l.head? with
    | some f => .ok (check_forhashStr f)
    | none => .error .indexError
  | .str f => .ok (check_forhashStr f)

/-- `hash_rename(filename, hash)`: insert `_0x` + hash between the stem
and the (full, possibly multi-dot) extension, keeping the directory. -/
def hash_rename (filename hsh : PyStr) : PyStr :=
  let s := split_filename filename
  osJoin s.1 (s.2.1 ++ ('_' :: '0' :: 'x' :: []) ++ hsh ++ s.2.2)

/-- The token pattern as the spec states it: the name contains the
literal `_0x` immediately followed by exactly 32 characters drawn from
`[a-z0-9]`. -/
def hasTokP (l : PyStr) : Prop :=
  ∃ pre t post, l = pre ++ ('_' :: '0' :: 'x' :: t) ++ post ∧
    t.length = 32 ∧ t.all isTokChar = true

/-- The stricter positional reading of claim C5: the token occurs before
the final extension, i.e. inside the stem left of the last-dot split of
the name component. -/
def tokBeforeFinalExt (f : PyStr) : Prop :=
  hasTokP (splitext (osSplit f).2).1

/-- `list_to_filename(filelist)`: the list itself when its length exceeds
one, otherwise `filelist[0]` — which raises IndexError when the list is
empty. -/
def list_to_filename (filelist : List PyStr) : Except PyErr StrOrList :=
  if filelist.length > 1 then .ok (.strlist filelist)
  else
    match filelist with
    | x :: _ => .ok (.str x)
    | [] => .error .indexError

/-! ## Materializer (copyfile) -/

/-- One directory entry of the modelled file system.  Directories and
file contents play no role in the claims under study and are omitted;
a symlink records its (possibly dangling) target. -/
inductive FsEntry where
  | file
  | symlink (target : PyStr)
  | absent
deriving DecidableEq

/-- The file system: a total map from paths to entries. -/
abbrev FileSys := PyStr → FsEntry

/-- Point update of the file system. -/
def setEntry (fs : FileSys) (p : PyStr) (e : FsEntry) : FileSys :=
  fun q => if q = p then e else fs q

/-- `os.path.lexists(p)`: true for files and for symlinks, dangling ones
included. -/
def lexists (fs : FileSys) (p : PyStr) : Bool :=
  match fs p with
  | .absent => false
  | _ => true

/-- `os.path.exists(p)`: resolves symlinks; a dangling symlink does not
exist.  (Chains of more than one symlink are not modelled — no claim
involves them.) -/
def pathExistsFS (fs : FileSys) (p : PyStr) : Bool :=
  match fs p with
  | .file => true
  | .symlink t =>
    (match fs t with
     | .file => true
     | _ => false)
  | .absent => false

/-- The reason attached to an `IOError`/`OSError` from the copy path. -/
inductive IOReason where
  | permission
  | diskFull
  | srcMissing
deriving DecidableEq

/-- Exceptions `shutil.copyfile` can raise: `shutil.Error` ("`src` and
`dst` are the same file") or an `IOError`/`OSError` from opening,
reading or writing either file. -/
inductive CopyExc where
  | shutilError
  | ioError (r : IOReason)
deriving DecidableEq

/-- The I/O environment: `copyFault src dst` models a failure of
`open(dst, 'wb')` or of the byte transfer (permissions, disk full, …)
that is independent of the modelled directory structure. -/
structure IOEnv where
  copyFault : PyStr → PyStr → Option IOReason

/-- `shutil._samefile(src, dst)`: same inode.  Path equality is the
model's proxy for inode identity (hard links are not modelled);
`os.path.samefile` raises `OSError` on a missing file, which
`_samefile` converts to `False` — hence the existence conjunct. -/
def samefileB (fs : FileSys) (s d : PyStr) : Bool :=
  (s == d) && pathExistsFS fs s

/-- `shutil.copyfile(src, dst)`: `shutil.Error` when src and dst are the
same file; `IOError` when the source cannot be opened or the transfer
fails; otherwise `dst` becomes a regular file (an existing `dst` is
truncated and overwritten). -/
def shutilCopyfile (fs : FileSys) (ioe : IOEnv) (src dst : PyStr) :
    Except CopyExc FileSys :=
  if samefileB fs src dst then .error .shutilError
  else if ¬ pathExistsFS fs src then .error (.ioError .srcMissing)
  else
    match ioe.copyFault src dst with
    | some r => .error (.ioError r)
    | none => .ok (setEntry fs dst .file)

/-- The warning-level diagnostics `copyfile` can log. -/
inductive Warning where
  /-- fmlogger.warn: File … already exists, overwriting with …, copy:… -/
  | overwriting (newfile originalfile : PyStr) (copy : Bool)
  /-- fmlogger.warn(e.message): the swallowed `shutil.Error`. -/
  | sameFileSwallowed (originalfile newfile : PyStr)
deriving DecidableEq

/-- `originalfile.endswith(".img")`. -/
def endsImg (p : PyStr) : Bool :=
  match p.reverse with
  | 'g' :: 'm' :: 'i' :: '.' :: _ => true
  | _ => false

/-- `copyfile(originalfile, newfile, copy)` with the platform flag
`posix` standing for `os.name is 'posix'`:

* warn when `newfile` already l-exists (it will be overwritten);
* on posix without `copy`: unlink a pre-existing `newfile` and symlink
  `originalfile` there (`os.symlink` does not require the target to
  exist — a dangling link is created silently);
* otherwise `shutil.copyfile`, where only `shutil.Error` is caught (and
  downgraded to a warning) while any `IOError`/`OSError` propagates;
* when `originalfile` ends in `.img`: recursively place the `.mat`
  companion if it exists on the source side, then always recursively
  place the mandatory `.hdr` companion.

`fuel` bounds the companion recursion.  The recursive calls are on
`.hdr`/`.mat` names, which never end in `.img`, so the recursion depth
is at most one and fuel 2 makes the exhaustion fallback unreachable. -/
def copyfileF : ℕ → FileSys → IOEnv → PyStr → PyStr → Bool → Bool →
    Except CopyExc (FileSys × List Warning)
  | 0, _, _, _, _, _, _ => Except.error (CopyExc.ioError IOReason.srcMissing)
  | fuel + 1, fs, ioe, originalfile, newfile, copy, posix =>
    let w0 : List Warning :=
      if lexists fs newfile then [.overwriting newfile originalfile copy] else []
    let primary : Except CopyExc (FileSys × List Warning) :=
      if posix && !copy then
        let fs1 := if lexists fs newfile then setEntry fs newfile .absent else fs
        .ok (setEntry fs1 newfile (.symlink originalfile), w0)
      else
        match shutilCopyfile fs ioe originalfile newfile with
        | .ok fs' => .ok (fs', w0)
        | .error .shutilError => .ok (fs, w0 ++ [.sameFileSwallowed originalfile newfile])
        | .error e => .error e
    match primary with
    | .error e => .error e
    | .ok (fs₁, w₁) =>
      if endsImg originalfile then
        let hdro := originalfile.take (originalfile.length - 4) ++ ('.' :: 'h' :: 'd' :: 'r' :: [])
        let hdrn := newfile.take (newfile.length - 4) ++ ('.' :: 'h' :: 'd' :: 'r' :: [])
        let mato := originalfile.take (originalfile.length - 4) ++ ('.' :: 'm' :: 'a' :: 't' :: [])
        let afterMat : Except CopyExc (FileSys × List Warning) :=
          if pathExistsFS fs₁ mato then
            let matn := newfile.take (newfile.length - 4) ++ ('.' :: 'm' :: 'a' :: 't' :: [])
            match copyfileF fuel fs₁ ioe mato matn copy posix with
            | .error e => .error e
            | .ok (fs₂, w₂) => .ok (fs₂, w₁ ++ w₂)
          else .ok (fs₁, w₁)
        match afterMat with
        | .error e => .error e
        | .ok (fs₃, w₃) =>
          match copyfileF fuel fs₃ ioe hdro hdrn copy posix with
          | .error e => .error e
          | .ok (fs₄, w₄) => .ok (fs₄, w₃ ++ w₄)
      else .ok (fs₁, w₁)

/-- `copyfile` with sufficient fuel (the companion recursion has depth
at most one). -/
def copyfile (fs : FileSys) (ioe : IOEnv) (originalfile newfile : PyStr)
    (copy posix : Bool) : Except CopyExc (FileSys × List Warning) :=
  copyfileF 2 fs ioe originalfile newfile copy posix

/-- An I/O environment with no faults. -/
def ioeClean : IOEnv := ⟨fun _ _ => none⟩

/-- An I/O environment where every copy transfer fails with disk-full. -/
def ioeAllFail : IOEnv := ⟨fun _ _ => some IOReason.diskFull⟩

/-- A file system holding only the regular file `a.img` (no `a.hdr`,
no `a.mat`). -/
def fsImgOnly : FileSys :=
  fun p => if p = toL ("a.img") then FsEntry.file else FsEntry.absent

/-- A file system holding `a.img` and `a.hdr` (no `a.mat`). -/
def fsImgHdr : FileSys :=
  fun p => if p = toL ("a.img") ∨ p = toL ("a.hdr") then FsEntry.file else FsEntry.absent

/-- A file system holding only the regular file `a.txt`. -/
def fsSrcOnly : FileSys :=
  fun p => if p = toL ("a.txt") then FsEntry.file else FsEntry.absent

/-- A filename whose only token occurrence sits inside the final
extension: the name is `a.` followed by `_0x` and 32 `a` characters, so
the final-extension split leaves the stem `a`. -/
def fDotToken : PyStr := toL ("a.") ++ ('_' :: '0' :: 'x' :: List.replicate 32 'a')

/-- The spec's concrete scenario: `scan_0x<32 chars>_T1.nii.gz`. -/
def fWithTok : PyStr :=
  toL ("scan") ++ ('_' :: '0' :: 'x' :: List.replicate 32 'a') ++ toL ("_T1.nii.gz")

/-! ## Supporting lemmas: the estimator -/

/-- The first component of the trail-accumulating fold of `__call__` is
the plain sum-accumulating fold. -/
theorem foldlPair_fst {α : Type} (f : α → ℚ) (g : α → DebugLine) :
    ∀ (l : List α) (t : ℚ) (ls : List DebugLine),
      (l.foldl (fun acc am => (acc.1 + f am, acc.2 ++ [g am])) (t, ls)).1
        = l.foldl (fun t am => t + f am) t
  | [], _, _ => rfl
  | a :: l, t, ls => foldlPair_fst f g l (t + f a) (ls ++ [g a])

/-- The returned `mem_gb` is the clamp of the unclamped total. -/
theorem memEstimate_eq_clamp (est : RamEstimator) (env : ImgEnv)
    (inputs : NodeInputs) :
    memEstimate est env inputs
      = clamp (rawTotal est env inputs) est.min_gb est.max_gb := by
  have h := foldlPair_fst (fun am : PyStr × ℚ => (processAttr env inputs am.1 am.2).1)
    (fun am : PyStr × ℚ => (processAttr env inputs am.1 am.2).2) est.input_multipliers 0 []
  unfold memEstimate callRam rawTotal
  simp only [] at h ⊢
  rw [h]

/-- Behaviour of `clamp` with both bounds present and ordered. -/
theorem clamp_both_spec (v lo hi : ℚ) (h : lo ≤ hi) :
    lo ≤ clamp v (some lo) (some hi) ∧ clamp v (some lo) (some hi) ≤ hi ∧
    (v ≤ lo → clamp v (some lo) (some hi) = lo) ∧
    (hi ≤ v → clamp v (some lo) (some hi) = hi) ∧
    (lo < hi →
      ((clamp v (some lo) (some hi) = lo ↔ v ≤ lo) ∧
       (clamp v (some lo) (some hi) = hi ↔ hi ≤ v))) := by
  have e : clamp v (some lo) (some hi) = min hi (max lo v) := rfl
  rw [e]
  refine ⟨le_min h (le_max_left lo v), min_le_left hi _, ?_, ?_, ?_⟩
  · intro hv
    rw [max_eq_left hv, min_eq_right h]
  · intro hv
    rw [max_eq_right (le_trans h hv), min_eq_left hv]
  · intro hlt
    constructor
    · constructor
      · intro heq
        by_contra hv
        push_neg at hv
        rcases le_total v hi with hvh | hvh
        · rw [max_eq_right hv.le, min_eq_right hvh] at heq
          exact absurd heq (ne_of_gt hv)
        · rw [max_eq_right hv.le, min_eq_left hvh] at heq
          exact absurd heq (ne_of_gt hlt)
      · intro hv
        rw [max_eq_left hv, min_eq_right h]
    · constructor
      · intro heq
        by_contra hv
        push_neg at hv
        rcases le_total v lo with hvl | hvl
        · rw [max_eq_left hvl, min_eq_right h] at heq
          exact absurd heq (ne_of_lt hlt)
        · rw [max_eq_right hvl, min_eq_right hv.le] at heq
          exact absurd heq (ne_of_lt hv)
      · intro hv
        rw [max_eq_right (le_trans h hv), min_eq_left hv]

/-! ## Claims C7, C10, C1 -/

/-- C7 (counterexample): with both bounds given but `low > high`
(`clamp(10, 5, 3)`), the code returns `min(high, max(low, value)) = 3`,
while the claimed formula `max(low, min(high, value))` gives `5`. -/
theorem c7_counterexample :
    clamp 10 (some 5) (some 3) = 3 ∧ max (5 : ℚ) (min 3 10) = 5 ∧ (3 : ℚ) ≠ 5 := by
  have h1 : max (5 : ℚ) 10 = 10 := max_eq_right (by norm_num)
  have h2 : min (3 : ℚ) 10 = 3 := min_eq_left (by norm_num)
  refine ⟨?_, ?_, by norm_num⟩
  · show min (3 : ℚ) (max 5 10) = 3
    rw [h1, h2]
  · rw [h2]
    exact max_eq_left (by norm_num)

/-- C7 (amended): when both bounds are given AND `low ≤ high`,
`clamp(value, low, high) = max(low, min(high, value))`; a bound of `None`
imposes no constraint on that side.  (Without `low ≤ high` the code
computes `min(high, max(low, value))` instead, see the counterexample.) -/
theorem c7_clamp_amended (v lo hi : ℚ) :
    (lo ≤ hi → clamp v (some lo) (some hi) = max lo (min hi v)) ∧
    clamp v (some lo) none = max lo v ∧
    clamp v none (some hi) = min hi v ∧
    clamp v none none = v := by
  refine ⟨?_, rfl, rfl, rfl⟩
  intro h
  show min hi (max lo v) = max lo (min hi v)
  rcases le_total v lo with hv | hv
  · rw [max_eq_left hv, min_eq_right (hv.trans h), min_eq_right h, max_eq_left hv]
  · rw [max_eq_right hv, max_eq_right (le_min h hv)]

/-- C7 (witness): the amended theorem applied at `v = 7, lo = 0, hi = 1`
and at unset bounds. -/
theorem c7_witness :
    clamp 7 (some 0) (some 1) = max 0 (min 1 7) ∧ clamp 7 (some 0) none = max 0 7 :=
  ⟨(c7_clamp_amended 7 0 1).1 (by norm_num), (c7_clamp_amended 7 0 1).2.1⟩

/-- C10 (confirmed): a declared weight whose looked-up value is the empty
list or empty tuple is classified as numeric — `any(isinstance(v, str))`
is false and `all(isinstance(v, (int, float)))` is vacuously true — so it
contributes exactly 0 and produces the numeric-values trail line. -/
theorem c10_empty_seq_numeric (env : ImgEnv) (inputs : NodeInputs)
    (attr : PyStr) (m : ℚ) (b : Bool)
    (ht : inputs.traits.contains attr = true)
    (hv : inputs.attr attr = PyVal.seq b []) :
    processAttr env inputs attr m = (0, DebugLine.valuesLine attr [] m 0) := by
  have ht' : attr ∈ inputs.traits := by simpa using ht
  simp [processAttr, ht', hv, isUndefOrNone, classifyPaths, classifyNums]

/-- C10 (witness): the trait `iters` holding the empty list under a
multiplier of 5 contributes 0 with a values line. -/
theorem c10_witness :
    processAttr envEmpty inputsEmptyList (toL ("iters")) 5
      = (0, DebugLine.valuesLine (toL ("iters")) [] 5 0) :=
  c10_empty_seq_numeric envEmpty inputsEmptyList (toL ("iters")) 5 false rfl rfl

/-- C1 (amended): with bounds `min_gb = lo ≤ hi = max_gb`, the returned
`memory_gb` always lies in `[lo, hi]`; it equals `lo` (resp. `hi`)
whenever the unclamped total is ≤ `lo` (resp. ≥ `hi`); and when
`lo < hi` these equalities are exact ("exactly when", with the boundary
tie included).  (The original "exactly when" biconditional fails in the
degenerate case `lo = hi`, see the counterexample.) -/
theorem c1_estimate_clamped (est : RamEstimator) (env : ImgEnv)
    (inputs : NodeInputs) (lo hi : ℚ)
    (hmin : est.min_gb = some lo) (hmax : est.max_gb = some hi) (h : lo ≤ hi) :
    (lo ≤ memEstimate est env inputs ∧ memEstimate est env inputs ≤ hi) ∧
    (rawTotal est env inputs ≤ lo → memEstimate est env inputs = lo) ∧
    (hi ≤ rawTotal est env inputs → memEstimate est env inputs = hi) ∧
    (lo < hi →
      ((memEstimate est env inputs = lo ↔ rawTotal est env inputs ≤ lo) ∧
       (memEstimate est env inputs = hi ↔ hi ≤ rawTotal est env inputs))) := by
  have e := memEstimate_eq_clamp est env inputs
  rw [hmin, hmax] at e
  obtain ⟨h1, h2, h3, h4, h5⟩ := clamp_both_spec (rawTotal est env inputs) lo hi h
  rw [e]
  exact ⟨⟨h1, h2⟩, h3, h4, h5⟩

/-- C1 (witness): the amended theorem applied to the weightless
configuration with overhead 2 GB and bounds [1/2, 8]. -/
theorem c1_witness :
    ((1 / 2 : ℚ) ≤ memEstimate estNoWeights envEmpty inputsEmpty ∧
      memEstimate estNoWeights envEmpty inputsEmpty ≤ 8) ∧
    (rawTotal estNoWeights envEmpty inputsEmpty ≤ 1 / 2 →
      memEstimate estNoWeights envEmpty inputsEmpty = 1 / 2) ∧
    (8 ≤ rawTotal estNoWeights envEmpty inputsEmpty →
      memEstimate estNoWeights envEmpty inputsEmpty = 8) ∧
    ((1 / 2 : ℚ) < 8 →
      ((memEstimate estNoWeights envEmpty inputsEmpty = 1 / 2 ↔
          rawTotal estNoWeights envEmpty inputsEmpty ≤ 1 / 2) ∧
       (memEstimate estNoWeights envEmpty inputsEmpty = 8 ↔
          8 ≤ rawTotal estNoWeights envEmpty inputsEmpty))) :=
  c1_estimate_clamped estNoWeights envEmpty inputsEmpty (1 / 2) 8 rfl rfl (by norm_num)

/-- C1 (counterexample): with the admissible degenerate bounds
`min_gb = max_gb = 1` and unclamped total 2, the result equals `min_gb`
although the total does not fall below `min_gb` — the claimed "equals
min_gb exactly when the unclamped total falls below min_gb" is false. -/
theorem c1_counterexample :
    ¬ ((memEstimate estDegenerate envEmpty inputsEmpty = 1)
        ↔ (rawTotal estDegenerate envEmpty inputsEmpty < 1)) := by
  have hr : rawTotal estDegenerate envEmpty inputsEmpty = 2 := by
    norm_num [rawTotal, estDegenerate]
  have hm : memEstimate estDegenerate envEmpty inputsEmpty = 1 := by
    rw [memEstimate_eq_clamp, hr]
    show min (1 : ℚ) (max 1 2) = 1
    rw [max_eq_right (by norm_num : (1 : ℚ) ≤ 2)]
    exact min_eq_left (by norm_num)
  rw [hm, hr]
  norm_num

/-! ## Claim C8: monotonicity of the unclamped total -/

/-- `processAttr` depends on the inputs object only through the trait set
and the value of the attribute at hand. -/
theorem processAttr_congr (env : ImgEnv) (i1 i2 : NodeInputs) (a : PyStr)
    (m : ℚ) (ht : i1.traits = i2.traits) (ha : i1.attr a = i2.attr a) :
    processAttr env i1 a m = processAttr env i2 a m := by
  unfold processAttr
  rw [ht, ha]

/-- Monotonicity of the sum-accumulating fold under pointwise bounds. -/
theorem foldl_add_le_foldl_add {α : Type} (f g : α → ℚ) :
    ∀ l : List α, (∀ x ∈ l, f x ≤ g x) → ∀ t u : ℚ, t ≤ u →
      l.foldl (fun s x => s + f x) t ≤ l.foldl (fun s x => s + g x) u := by
  intro l
  induction l with
  | nil => intro _ t u htu; simpa using htu
  | cons a l ih =>
    intro h t u htu
    simp only [List.foldl_cons]
    exact ih (fun x hx => h x (List.mem_cons_of_mem a hx)) _ _
      (add_le_add htu (h a (List.mem_cons_self a l)))

/-- When the scanning loop finds no valid file, it also accumulated no
voxels. -/
theorem scanFiles_snd_zero (env : ImgEnv) :
    ∀ ps : List PyStr, (scanFiles env ps).2 = 0 → (scanFiles env ps).1 = 0 := by
  intro ps
  induction ps with
  | nil => intro _; rfl
  | cons p ps ih =>
    intro h
    by_cases he : env.pathExists p = true
    · cases hs : env.shape p with
      | some s =>
        simp [scanFiles, he, hs] at h
      | none =>
        simp only [scanFiles, he, hs, if_true] at h ⊢
        exact ih h
    · simp only [scanFiles] at h ⊢
      rw [if_neg he] at h ⊢
      exact ih h

/-- The accumulated voxel total is the sum of the per-path voxel
contributions. -/
theorem scanFiles_fst_eq_sum (env : ImgEnv) :
    ∀ ps : List PyStr, (scanFiles env ps).1 = (ps.map (voxCount env)).sum := by
  intro ps
  induction ps with
  | nil => rfl
  | cons p ps ih =>
    by_cases he : env.pathExists p = true
    · cases hs : env.shape p with
      | some s => simp [scanFiles, voxCount, he, hs, ih]
      | none => simp [scanFiles, voxCount, he, hs, ih]
    · simp [scanFiles, voxCount, he, ih]

/-- In the file-like branch the contribution is always
`vox_total * multiplier / 2^30` (when no file is valid the total is 0,
so the explicit 0 of the `else` branch coincides). -/
theorem processAttr_fst_file (env : ImgEnv) (inputs : NodeInputs) (a : PyStr)
    (m : ℚ) (paths : List PyStr) (hc : a ∈ inputs.traits)
    (hnu : isUndefOrNone (inputs.attr a) = false)
    (hp : classifyPaths (inputs.attr a) = some paths) :
    (processAttr env inputs a m).1
      = ((scanFiles env paths).1 : ℚ) * m / 1024 ^ 3 := by
  simp [processAttr, hc, hnu, hp]
  split_ifs with h2
  · rfl
  · have hz : (scanFiles env paths).2 = 0 := by omega
    rw [scanFiles_snd_zero env paths hz]
    simp

/-- C8 (amended): the unclamped total is monotonically non-decreasing in
each input's magnitude PROVIDED the relevant multipliers are
non-negative.  First part: a numeric input grows while traits and all
other attributes stay fixed.  Second part: the image referenced by path
`p` grows in voxel count while existence and all other shapes stay
fixed.  (A negative multiplier — permitted by the configuration —
reverses the direction, see the counterexample.) -/
theorem c8_monotone_amended :
    (∀ (est : RamEstimator) (env : ImgEnv) (i1 i2 : NodeInputs)
        (attr : PyStr) (q1 q2 : ℚ),
      i1.traits = i2.traits →
      (∀ a, a ≠ attr → i1.attr a = i2.attr a) →
      i1.attr attr = PyVal.num q1 → i2.attr attr = PyVal.num q2 → q1 ≤ q2 →
      (∀ m, (attr, m) ∈ est.input_multipliers → 0 ≤ m) →
      rawTotal est env i1 ≤ rawTotal est env i2) ∧
    (∀ (est : RamEstimator) (e1 e2 : ImgEnv) (inputs : NodeInputs) (p : PyStr),
      (∀ q, e2.pathExists q = e1.pathExists q) →
      (∀ q, q ≠ p → e2.shape q = e1.shape q) →
      voxCount e1 p ≤ voxCount e2 p →
      (∀ a m, (a, m) ∈ est.input_multipliers → 0 ≤ m) →
      rawTotal est e1 inputs ≤ rawTotal est e2 inputs) := by
  constructor
  · intro est env i1 i2 attr q1 q2 ht hoth h1 h2 hq hm
    unfold rawTotal
    refine add_le_add_right ?_ _
    refine foldl_add_le_foldl_add _ _ est.input_multipliers ?_ 0 0 le_rfl
    rintro ⟨x, mx⟩ hmem
    by_cases hx : x = attr
    · subst hx
      have hm0 : 0 ≤ mx := hm mx hmem
      by_cases hc : x ∈ i1.traits
      · have hc2 : x ∈ i2.traits := ht ▸ hc
        simp [processAttr, hc, hc2, h1, h2, isUndefOrNone, classifyPaths,
          classifyNums]
        exact mul_le_mul_of_nonneg_right hq hm0
      · have hc2 : x ∉ i2.traits := ht ▸ hc
        simp [processAttr, hc, hc2]
    · rw [processAttr_congr env i1 i2 x mx ht (hoth x hx)]
  · intro est e1 e2 inputs p hex hsh hvox hm
    unfold rawTotal
    refine add_le_add_right ?_ _
    refine foldl_add_le_foldl_add _ _ est.input_multipliers ?_ 0 0 le_rfl
    rintro ⟨x, mx⟩ hmem
    have hm0 : 0 ≤ mx := hm x mx hmem
    by_cases hc : x ∈ inputs.traits
    · by_cases hnu : isUndefOrNone (inputs.attr x) = true
      · simp [processAttr, hc, hnu]
      · have hnu' : isUndefOrNone (inputs.attr x) = false := by
          simpa using hnu
        cases hp : classifyPaths (inputs.attr x) with
        | some paths =>
          rw [processAttr_fst_file e1 inputs x mx paths hc hnu' hp,
            processAttr_fst_file e2 inputs x mx paths hc hnu' hp]
          have hscan : (scanFiles e1 paths).1 ≤ (scanFiles e2 paths).1 := by
            rw [scanFiles_fst_eq_sum, scanFiles_fst_eq_sum]
            refine List.sum_le_sum ?_
            intro q _
            by_cases hqp : q = p
            · subst hqp; exact hvox
            · unfold voxCount
              rw [hex q, hsh q hqp]
          have hcast : ((scanFiles e1 paths).1 : ℚ) ≤ ((scanFiles e2 paths).1 : ℚ) := by
            exact_mod_cast hscan
          have hpos : (0 : ℚ) < 1024 ^ 3 := by norm_num
          exact (div_le_div_iff_of_pos_right hpos).mpr
            (mul_le_mul_of_nonneg_right hcast hm0)
        | none =>
          simp [processAttr, hp]
    · simp [processAttr, hc]

/-- C8 (counterexample): with the admissible multiplier -1 on
`iterations`, growing the input from 1 to 2 strictly decreases the
unclamped total (from -0.7 to -1.7) — the claimed monotonicity fails. -/
theorem c8_counterexample :
    rawTotal estNegWeight envEmpty inputsIterB
      < rawTotal estNegWeight envEmpty inputsIterA ∧ (1 : ℚ) ≤ 2 := by
  have ha : rawTotal estNegWeight envEmpty inputsIterA = -7 / 10 := by
    norm_num [rawTotal, estNegWeight, inputsIterA, processAttr, isUndefOrNone,
      classifyPaths, classifyNums]
  have hb : rawTotal estNegWeight envEmpty inputsIterB = -17 / 10 := by
    norm_num [rawTotal, estNegWeight, inputsIterB, processAttr, isUndefOrNone,
      classifyPaths, classifyNums]
  rw [ha, hb]
  norm_num

/-- C8 (witness): the amended theorem applied to a positive numeric
weight (`iterations` growing from 1 to 2) and to a positive file weight
(`vol.nii` growing from 10x10x10 to 20x10x10). -/
theorem c8_witness :
    rawTotal estPosWeight envEmpty inputsIterA
      ≤ rawTotal estPosWeight envEmpty inputsIterB ∧
    rawTotal estOneFile envVolSmall inputsOneFile
      ≤ rawTotal estOneFile envVolLarge inputsOneFile := by
  constructor
  · refine c8_monotone_amended.1 estPosWeight envEmpty inputsIterA inputsIterB
      (toL ("iterations")) 1 2 rfl ?_ rfl rfl (by norm_num) ?_
    · intro a ha
      simp [inputsIterA, inputsIterB, ha]
    · intro m hm
      simp [estPosWeight] at hm
      rw [hm]
      norm_num
  · refine c8_monotone_amended.2 estOneFile envVolSmall envVolLarge
      inputsOneFile (toL ("vol.nii")) (fun q => rfl) ?_ (by decide) ?_
    · intro q hq
      simp [envVolSmall, envVolLarge, hq]
    · intro a m hm
      simp [estOneFile] at hm
      rw [hm.2]
      norm_num

/-! ## Claim C4: split / join round-trip -/

/-- The two parts of `splitext` concatenate back to the input. -/
theorem splitext_append (p : PyStr) : (splitext p).1 ++ (splitext p).2 = p := by
  unfold splitext
  cases hb : p.reverse.dropWhile (fun c => c != '.') with
  | nil => simp [hb]
  | cons c rest =>
    have hc : c = '.' := by
      have h := List.head?_dropWhile_not (fun c => c != '.') p.reverse
      rw [hb] at h
      simpa using h
    have hab : p.reverse.takeWhile (fun c => c != '.') ++ (c :: rest) = p.reverse := by
      rw [← hb]
      exact List.takeWhile_append_dropWhile _ _
    simp only [hb]
    split_ifs with hcond
    · subst hc
      have e : rest.reverse ++ '.' :: (p.reverse.takeWhile (fun c => c != '.')).reverse
          = (p.reverse.takeWhile (fun c => c != '.') ++ ('.' :: rest)).reverse := by
        simp [List.reverse_append]
      rw [e, hab, List.reverse_reverse]
    · simp

/-- The suffix-stripping loop reassembles to its input, for any fuel. -/
theorem extLoopF_append : ∀ (fuel : ℕ) (fn : PyStr),
    (extLoopF fuel fn).1 ++ (extLoopF fuel fn).2 = fn := by
  intro fuel
  induction fuel with
  | zero => intro fn; simp [extLoopF]
  | succ fuel ih =>
    intro fn
    unfold extLoopF
    by_cases h : (splitext fn).2 = []
    · simp [h]
    · simp only [h, if_false, ite_false]
      rw [← List.append_assoc, ih]
      exact splitext_append fn

/-- C4 (confirmed): splitting with `split_filename` and rejoining with
`fname_presuffix` (empty prefix/suffix, no new directory,
`use_ext = True`) reproduces the normalized original path — the
directory and basename recombined by the standard join — for every
path; concretely it reproduces paths with multi-part (`.nii.gz`),
single-part and absent extensions verbatim. -/
theorem c4_split_join_roundtrip :
    (∀ cwd p : PyStr, fname_presuffix cwd p [] [] none true = normalizePath p) ∧
    fname_presuffix [] (toL ("/home/data/subject.nii.gz")) [] [] none true
      = toL ("/home/data/subject.nii.gz") ∧
    fname_presuffix [] (toL ("/tmp/file.txt")) [] [] none true
      = toL ("/tmp/file.txt") ∧
    fname_presuffix [] (toL ("noext")) [] [] none true = toL ("noext") := by
  refine ⟨?_, by decide, by decide, by decide⟩
  intro cwd p
  unfold fname_presuffix split_filename normalizePath
  simp only [if_true, List.append_nil, List.nil_append]
  rw [extLoopF_append]

/-! ## Claims C5 and C9: the cache-token scanner -/

/-- Structure of a successful anchored match: the input starts with the
35-character match, whose tail is the 32-character class token. -/
theorem hashMatchAt_some {l m : PyStr} (h : hashMatchAt l = some m) :
    ∃ t, m = '_' :: '0' :: 'x' :: t ∧ t.length = 32 ∧ t.all isTokChar = true ∧
      l = m ++ l.drop 35 := by
  match l with
  | [] => simp [hashMatchAt] at h
  | [c1] => simp [hashMatchAt] at h
  | [c1, c2] => simp [hashMatchAt] at h
  | c1 :: c2 :: c3 :: rest =>
    simp only [hashMatchAt] at h
    split_ifs at h with hcond
    · obtain ⟨h1, h2, h3, hlen, htok⟩ := hcond
      subst h1; subst h2; subst h3
      rw [Option.some_inj] at h
      refine ⟨rest.take 32, h.symm, hlen, htok, ?_⟩
      rw [← h]
      have hd : (('_' : Char) :: '0' :: 'x' :: rest).drop 35 = rest.drop 32 := by
        simp [List.drop_succ_cons]
      rw [hd]
      simp [List.take_append_drop]

/-- A successful anchored match on a token-headed input returns exactly
the token. -/
theorem hashMatchAt_tok {h post : PyStr} (hlen : h.length = 32)
    (htok : h.all isTokChar = true) :
    hashMatchAt (('_' : Char) :: '0' :: 'x' :: (h ++ post)) = some ('_' :: '0' :: 'x' :: h) := by
  have ht : (h ++ post).take 32 = h := List.take_left' hlen
  simp only [hashMatchAt]
  rw [ht]
  rw [if_pos ⟨trivial, trivial, trivial, hlen, htok⟩]

/-- Unfolding `reFindAll` at a matching head. -/
theorem reFindAll_cons_some {c : Char} {rest m : PyStr}
    (h : hashMatchAt (c :: rest) = some m) :
    reFindAll (c :: rest) = m :: reFindAll (rest.drop 34) := by
  rw [reFindAll, h]

/-- Unfolding `reFindAll` at a non-matching head. -/
theorem reFindAll_cons_none {c : Char} {rest : PyStr}
    (h : hashMatchAt (c :: rest) = none) :
    reFindAll (c :: rest) = reFindAll rest := by
  rw [reFindAll, h]

/-- The scanner finds a token placed at the very head of the input. -/
theorem tok_findAll_base (h post : PyStr) (hlen : h.length = 32)
    (htok : h.all isTokChar = true) :
    ('_' :: '0' :: 'x' :: h) ∈ reFindAll (('_' :: '0' :: 'x' :: h) ++ post) := by
  have e : ('_' :: '0' :: 'x' :: h) ++ post = '_' :: '0' :: 'x' :: (h ++ post) := by
    simp
  rw [e, reFindAll_cons_some (hashMatchAt_tok hlen htok)]
  exact List.mem_cons_self _ _

/-- Fuel-indexed induction: a well-formed token embedded anywhere in the
input is always among the scanner's matches.  A match found earlier
cannot overlap the embedded token (its 32 class characters exclude the
token's underscore), so the post-match jump never skips it. -/
theorem tok_mem_findAll_aux (h : PyStr) (hlen : h.length = 32)
    (htok : h.all isTokChar = true) :
    ∀ (n : ℕ) (pre post : PyStr), pre.length ≤ n →
      ('_' :: '0' :: 'x' :: h) ∈ reFindAll (pre ++ ('_' :: '0' :: 'x' :: h) ++ post) := by
  intro n
  induction n with
  | zero =>
    intro pre post hn
    have hpre : pre = [] := List.eq_nil_of_length_eq_zero (Nat.le_zero.mp hn)
    subst hpre
    simpa using tok_findAll_base h post hlen htok
  | succ n ih =>
    intro pre post hn
    cases pre with
    | nil => simpa using tok_findAll_base h post hlen htok
    | cons c pre' =>
      have e : (c :: pre') ++ ('_' :: '0' :: 'x' :: h) ++ post
          = c :: (pre' ++ ('_' :: '0' :: 'x' :: h) ++ post) := by simp
      rw [e]
      cases hm : hashMatchAt (c :: (pre' ++ ('_' :: '0' :: 'x' :: h) ++ post)) with
      | none =>
        rw [reFindAll_cons_none hm]
        refine ih pre' post ?_
        simp only [List.length_cons] at hn
        omega
      | some m =>
        obtain ⟨t, hmf, htl, hta, hdecomp⟩ := hashMatchAt_some hm
        by_cases h35 : 34 ≤ pre'.length
        · rw [reFindAll_cons_some hm]
          refine List.mem_cons_of_mem _ ?_
          have e2 : (pre' ++ ('_' :: '0' :: 'x' :: h) ++ post).drop 34
              = pre'.drop 34 ++ ('_' :: '0' :: 'x' :: h) ++ post := by
            rw [List.append_assoc, List.drop_append_eq_append_drop,
              Nat.sub_eq_zero_of_le h35, List.drop_zero, ← List.append_assoc]
          rw [e2]
          refine ih (pre'.drop 34) post ?_
          rw [List.length_drop]
          simp only [List.length_cons] at hn
          omega
        · exfalso
          push_neg at h35
          have hmlen : m.length = 35 := by rw [hmf]; simp [htl]
          have h1 : (c :: (pre' ++ ('_' :: '0' :: 'x' :: h) ++ post))[pre'.length + 1]?
              = some '_' := by
            have e3 : c :: (pre' ++ ('_' :: '0' :: 'x' :: h) ++ post)
                = (c :: pre') ++ (('_' :: '0' :: 'x' :: h) ++ post) := by simp
            rw [e3, List.getElem?_append_right (by simp)]
            simp
          have h2 : (c :: (pre' ++ ('_' :: '0' :: 'x' :: h) ++ post))[pre'.length + 1]?
              = m[pre'.length + 1]? := by
            conv_lhs => rw [hdecomp]
            rw [List.getElem?_append]
            rw [if_pos (show pre'.length + 1 < m.length by rw [hmlen]; omega)]
          rw [h1] at h2
          rw [hmf] at h2
          rcases hpl : pre'.length with _ | _ | pj
          · rw [hpl] at h2
            have hbad : ('_' : Char) = '0' := by simpa using h2
            exact absurd hbad (by decide)
          · rw [hpl] at h2
            have hbad : ('_' : Char) = 'x' := by simpa using h2
            exact absurd hbad (by decide)
          · rw [hpl] at h2
            have hget : t[pj]? = some '_' := by
              have e4 : pj + 2 + 1 = pj + 3 := by omega
              rw [e4] at h2
              simpa using h2.symm
            obtain ⟨hlt, hgete⟩ := List.getElem?_eq_some.mp hget
            have hmem : ('_' : Char) ∈ t := hgete ▸ List.getElem_mem hlt
            have hbad := List.all_eq_true.mp hta _ hmem
            exact absurd hbad (by decide)

/-- A well-formed token embedded anywhere in the input is among the
scanner's matches. -/
theorem tok_mem_findAll (h pre post : PyStr) (hlen : h.length = 32)
    (htok : h.all isTokChar = true) :
    ('_' :: '0' :: 'x' :: h) ∈ reFindAll (pre ++ ('_' :: '0' :: 'x' :: h) ++ post) :=
  tok_mem_findAll_aux h hlen htok pre.length pre post le_rfl

/-- Soundness of the scanner, fuel-indexed: every reported match is a
well-formed `_0x` token and occurs in the input. -/
theorem findAll_sound_aux :
    ∀ (n : ℕ) (l : PyStr), l.length ≤ n → ∀ m ∈ reFindAll l,
      (∃ t, m = '_' :: '0' :: 'x' :: t ∧ t.length = 32 ∧ t.all isTokChar = true) ∧
      ∃ pre post, l = pre ++ m ++ post := by
  intro n
  induction n with
  | zero =>
    intro l hl m hm
    have : l = [] := List.eq_nil_of_length_eq_zero (Nat.le_zero.mp hl)
    subst this
    simp [reFindAll] at hm
  | succ n ih =>
    intro l hl m hm
    cases l with
    | nil => simp [reFindAll] at hm
    | cons c rest =>
      cases hmm : hashMatchAt (c :: rest) with
      | none =>
        rw [reFindAll_cons_none hmm] at hm
        obtain ⟨hshape, pre, post, hdec⟩ :=
          ih rest (by simp only [List.length_cons] at hl; omega) m hm
        exact ⟨hshape, c :: pre, post, by rw [hdec]; simp⟩
      | some m' =>
        rw [reFindAll_cons_some hmm] at hm
        obtain ⟨t, hmf, htl, hta, hdecomp⟩ := hashMatchAt_some hmm
        rcases List.mem_cons.mp hm with hme | hmr
        · subst hme
          exact ⟨⟨t, hmf, htl, hta⟩, [], (c :: rest).drop 35, by simpa using hdecomp⟩
        · have hjump : (c :: rest).drop 35 = rest.drop 34 := by
            simp [List.drop_succ_cons]
          obtain ⟨hshape, pre, post, hdec⟩ :=
            ih (rest.drop 34)
              (by rw [List.length_drop]; simp only [List.length_cons] at hl; omega)
              m hmr
          refine ⟨hshape, m' ++ pre, post, ?_⟩
          rw [hdecomp, hjump, hdec]
          simp [List.append_assoc]

/-- Soundness of the scanner. -/
theorem findAll_sound (l m : PyStr) (hm : m ∈ reFindAll l) :
    (∃ t, m = '_' :: '0' :: 'x' :: t ∧ t.length = 32 ∧ t.all isTokChar = true) ∧
    ∃ pre post, l = pre ++ m ++ post :=
  findAll_sound_aux l.length l le_rfl m hm

/-- The scanner reports a match exactly when the spec's token pattern
occurs in the input. -/
theorem findAll_ne_nil_iff (l : PyStr) : reFindAll l ≠ [] ↔ hasTokP l := by
  constructor
  · intro hne
    cases hfa : reFindAll l with
    | nil => exact absurd hfa hne
    | cons m ms =>
      have hm : m ∈ reFindAll l := by rw [hfa]; exact List.mem_cons_self _ _
      obtain ⟨⟨t, hmf, htl, hta⟩, pre, post, hdec⟩ := findAll_sound l m hm
      exact ⟨pre, t, post, by rw [hdec, hmf], htl, hta⟩
  · rintro ⟨pre, t, post, hdec, htl, hta⟩
    rw [hdec]
    exact List.ne_nil_of_mem (tok_mem_findAll t pre post htl hta)

/-- Any decomposition witnessing the token pattern forces at least 35
characters. -/
theorem hasTokP_length {l : PyStr} (h : hasTokP l) : 35 ≤ l.length := by
  obtain ⟨pre, t, post, hdec, htl, _⟩ := h
  rw [hdec]
  simp only [List.length_append, List.length_cons, htl]
  omega

/-- `takeWhile` keeps a list all of whose elements satisfy the predicate. -/
theorem takeWhile_all {p : Char → Bool} :
    ∀ {l : PyStr}, (∀ c ∈ l, p c = true) → l.takeWhile p = l := by
  intro l
  induction l with
  | nil => intro _; rfl
  | cons c t ih =>
    intro h
    rw [List.takeWhile_cons, if_pos (h c (List.mem_cons_self c t))]
    rw [ih (fun x hx => h x (List.mem_cons_of_mem c hx))]

/-- `dropWhile` drops a list all of whose elements satisfy the predicate. -/
theorem dropWhile_all {p : Char → Bool} :
    ∀ {l : PyStr}, (∀ c ∈ l, p c = true) → l.dropWhile p = [] := by
  intro l
  induction l with
  | nil => intro _; rfl
  | cons c t ih =>
    intro h
    rw [List.dropWhile_cons, if_pos (h c (List.mem_cons_self c t))]
    exact ih (fun x hx => h x (List.mem_cons_of_mem c hx))

/-- `takeWhile` takes nothing from a list whose head fails (here: all
elements fail). -/
theorem takeWhile_none {p : Char → Bool} :
    ∀ {l : PyStr}, (∀ c ∈ l, p c = false) → l.takeWhile p = [] := by
  intro l h
  cases l with
  | nil => rfl
  | cons c t => simp [List.takeWhile_cons, h c (List.mem_cons_self c t)]

/-- `dropWhile` keeps a list whose head fails (here: all elements fail). -/
theorem dropWhile_none {p : Char → Bool} :
    ∀ {l : PyStr}, (∀ c ∈ l, p c = false) → l.dropWhile p = l := by
  intro l h
  cases l with
  | nil => rfl
  | cons c t => simp [List.dropWhile_cons, h c (List.mem_cons_self c t)]

/-- The basename produced by `os.path.split` contains no separator. -/
theorem osSplit_tail_no_slash (p : PyStr) : ∀ c ∈ (osSplit p).2, c ≠ '/' := by
  intro c hc
  simp only [osSplit] at hc
  rw [List.mem_reverse] at hc
  have := List.mem_takeWhile_imp hc
  simpa using this

/-- The directory produced by `os.path.split` is empty, all slashes, or
ends in a non-slash character. -/
theorem osSplit_head_cases (p : PyStr) :
    (osSplit p).1 = [] ∨ (∀ c ∈ (osSplit p).1, c = '/') ∨
    ∃ c t, ((osSplit p).1).reverse = c :: t ∧ c ≠ '/' := by
  simp only [osSplit]
  split_ifs with hcond
  · rcases hY : ((p.reverse.dropWhile (fun c => c != '/')).reverse).reverse.dropWhile
        (fun c => c == '/') with _ | ⟨c, t⟩
    · left
      rfl
    · right; right
      refine ⟨c, t, by simp, ?_⟩
      have h := List.head?_dropWhile_not (fun c => c == '/')
        ((p.reverse.dropWhile (fun c => c != '/')).reverse).reverse
      rw [hY] at h
      simpa using h
  · push_neg at hcond
    by_cases hnil : (p.reverse.dropWhile (fun c => c != '/')).reverse = []
    · left
      exact hnil
    · right; left
      intro c hc
      have hany := hcond hnil
      have : ∀ x ∈ (p.reverse.dropWhile (fun c => c != '/')).reverse,
          (x != '/') = false := by
        intro x hx
        by_contra hxne
        exact hany (List.any_eq_true.mpr ⟨x, hx, by simpa using hxne⟩)
      have := this c hc
      simpa using this

/-- Splitting after joining a well-formed directory part with a
non-empty, slash-free basename recovers both parts.  The directory
hypothesis is exactly the shape `os.path.split` produces
(`osSplit_head_cases`). -/
theorem osSplit_osJoin (hd nf : PyStr) (hnf : nf ≠ [])
    (hnos : ∀ c ∈ nf, c ≠ '/')
    (hhd : hd = [] ∨ (∀ c ∈ hd, c = '/') ∨ ∃ c t, hd.reverse = c :: t ∧ c ≠ '/') :
    osSplit (osJoin hd nf) = (hd, nf) := by
  obtain ⟨c0, nf', rfl⟩ := List.exists_cons_of_ne_nil hnf
  have hc0 : c0 ≠ '/' := hnos c0 (List.mem_cons_self c0 nf')
  have hnfpass : ∀ c ∈ (c0 :: nf').reverse, (c != '/') = true := by
    intro c hc
    rw [List.mem_reverse] at hc
    simpa using hnos c hc
  have habs : ¬ ((c0 :: nf').head? = some '/') := by
    simp [hc0]
  rcases hhd with hhd | hhd | ⟨d, t', hrev, hdne⟩
  · -- hd = []
    subst hhd
    rw [osJoin, if_neg habs, if_pos (Or.inl rfl)]
    simp only [List.nil_append, osSplit]
    rw [takeWhile_all hnfpass, dropWhile_all hnfpass]
    simp
  · -- hd is all slashes (possibly empty)
    have hjoin : osJoin hd (c0 :: nf') = hd ++ (c0 :: nf') := by
      rw [osJoin, if_neg habs, if_pos]
      cases hde : hd with
      | nil => exact Or.inl rfl
      | cons d hd' =>
        right
        rw [← hde]
        have hlast := List.head?_reverse hd
        cases hr : hd.reverse with
        | nil =>
          rw [hde] at hr
          simp at hr
        | cons e t =>
          have he : e = '/' := by
            refine hhd e ?_
            rw [← List.mem_reverse, hr]
            exact List.mem_cons_self e t
          rw [hr] at hlast
          rw [← hlast, he]
          rfl
    have hhdfail : ∀ c ∈ hd.reverse, (c != '/') = false := by
      intro c hc
      rw [List.mem_reverse] at hc
      simp [hhd c hc]
    rw [hjoin]
    simp only [osSplit, List.reverse_append]
    rw [List.takeWhile_append_of_pos hnfpass, takeWhile_none hhdfail,
      List.dropWhile_append_of_pos hnfpass, dropWhile_none hhdfail]
    have hnoany : ¬ (hd.reverse.reverse ≠ [] ∧
        (hd.reverse.reverse.any fun c => c != '/') = true) := by
      rw [List.reverse_reverse]
      rintro ⟨-, hany⟩
      obtain ⟨x, hx, hxne⟩ := List.any_eq_true.mp hany
      exact absurd (hhd x hx) (by simpa using hxne)
    rw [if_neg hnoany]
    simp
  · -- hd ends in a non-slash character
    have hdnn : hd ≠ [] := by
      intro h
      rw [h] at hrev
      simp at hrev
    have hlast : hd.getLast? = some d := by
      rw [← List.head?_reverse, hrev]
      rfl
    have hjoin : osJoin hd (c0 :: nf') = hd ++ '/' :: (c0 :: nf') := by
      rw [osJoin, if_neg habs, if_neg]
      rintro (h | h)
      · exact hdnn h
      · rw [hlast] at h
        exact hdne (by simpa using h)
    rw [hjoin]
    have hrevall : (hd ++ '/' :: (c0 :: nf')).reverse
        = (c0 :: nf').reverse ++ ('/' :: hd.reverse) := by
      simp
    simp only [osSplit]
    rw [hrevall, List.takeWhile_append_of_pos hnfpass,
      List.dropWhile_append_of_pos hnfpass]
    have htw : ('/' :: hd.reverse).takeWhile (fun c => c != '/') = [] := by
      simp [List.takeWhile_cons]
    have hdw : ('/' :: hd.reverse).dropWhile (fun c => c != '/') = '/' :: hd.reverse := by
      simp [List.dropWhile_cons]
    rw [htw, hdw]
    have hcond : (('/' :: hd.reverse).reverse ≠ [] ∧
        ((('/' :: hd.reverse).reverse).any fun c => c != '/') = true) := by
      constructor
      · simp
      · refine List.any_eq_true.mpr ⟨d, ?_, by simpa using hdne⟩
        rw [List.reverse_cons, List.reverse_reverse]
        refine List.mem_append.mpr (Or.inl ?_)
        rw [← List.mem_reverse, hrev]
        exact List.mem_cons_self d t'
    rw [if_pos hcond]
    have hfinal : ((('/' :: hd.reverse).reverse).reverse.dropWhile
        (fun c => c == '/')).reverse = hd := by
      rw [List.reverse_reverse]
      have e1 : ('/' :: hd.reverse).dropWhile (fun c => c == '/')
          = hd.reverse.dropWhile (fun c => c == '/') := by
        simp [List.dropWhile_cons]
      rw [e1, hrev, List.dropWhile_cons, if_neg (by simpa using hdne), ← hrev,
        List.reverse_reverse]
    rw [hfinal]
    simp

/-- C9 (confirmed): embedding a well-formed 32-character token with
`hash_rename` and re-checking with `check_forhash` round-trips: the
directory is unchanged, the token sits between the stem and the (full,
possibly multi-dot) extension, and the check returns true with a match
list containing `_0x` + token. -/
theorem c9_hash_roundtrip (f hsh : PyStr) (hlen : hsh.length = 32)
    (htok : hsh.all isTokChar = true) :
    (osSplit (hash_rename f hsh)).1 = (split_filename f).1 ∧
    (osSplit (hash_rename f hsh)).2
      = (split_filename f).2.1 ++ ('_' :: '0' :: 'x' :: hsh)
          ++ (split_filename f).2.2 ∧
    ∃ ms, check_forhash (StrOrList.str (hash_rename f hsh))
        = Except.ok (true, some ms) ∧ ('_' :: '0' :: 'x' :: hsh) ∈ ms := by
  have hstemext : (split_filename f).2.1 ++ (split_filename f).2.2 = (osSplit f).2 := by
    unfold split_filename
    exact extLoopF_append _ _
  have htailnos := osSplit_tail_no_slash f
  have hsf1 : (split_filename f).1 = (osSplit f).1 := rfl
  have hnewname : hash_rename f hsh
      = osJoin (osSplit f).1
          ((split_filename f).2.1 ++ ('_' :: '0' :: 'x' :: hsh)
            ++ (split_filename f).2.2) := by
    unfold hash_rename
    simp [List.append_assoc]
    rw [hsf1]
  have hnfne : (split_filename f).2.1 ++ ('_' :: '0' :: 'x' :: hsh)
      ++ (split_filename f).2.2 ≠ [] := by
    simp
  have hnfnos : ∀ c ∈ (split_filename f).2.1 ++ ('_' :: '0' :: 'x' :: hsh)
      ++ (split_filename f).2.2, c ≠ '/' := by
    intro c hc
    rcases List.mem_append.mp hc with hc1 | hc1
    · rcases List.mem_append.mp hc1 with hc2 | hc2
      · exact htailnos c (by rw [← hstemext]; exact List.mem_append.mpr (Or.inl hc2))
      · simp only [List.mem_cons] at hc2
        rcases hc2 with rfl | rfl | rfl | hc3
        · decide
        · decide
        · decide
        · have hck := List.all_eq_true.mp htok c hc3
          intro heq
          subst heq
          exact absurd hck (by decide)
    · exact htailnos c (by rw [← hstemext]; exact List.mem_append.mpr (Or.inr hc1))
  have hsplit := osSplit_osJoin (osSplit f).1
    ((split_filename f).2.1 ++ ('_' :: '0' :: 'x' :: hsh) ++ (split_filename f).2.2)
    hnfne hnfnos (osSplit_head_cases f)
  have hmem := tok_mem_findAll hsh (split_filename f).2.1 (split_filename f).2.2
    hlen htok
  refine ⟨?_, ?_, ?_⟩
  · rw [hnewname, hsplit, hsf1]
  · rw [hnewname, hsplit]
  · refine ⟨reFindAll ((split_filename f).2.1 ++ ('_' :: '0' :: 'x' :: hsh)
      ++ (split_filename f).2.2), ?_, hmem⟩
    show Except.ok (check_forhashStr (hash_rename f hsh)) = _
    unfold check_forhashStr
    rw [hnewname, hsplit]
    simp only []
    rw [if_neg ?hne]
    case hne =>
      rw [List.isEmpty_iff]
      exact List.ne_nil_of_mem hmem

/-- C9 (witness): the round-trip theorem applied to
`/d/base.nii.gz` and the token of 32 `a` characters. -/
theorem c9_witness :
    (osSplit (hash_rename (toL ("/d/base.nii.gz")) (List.replicate 32 'a'))).1
      = (split_filename (toL ("/d/base.nii.gz"))).1 ∧
    (osSplit (hash_rename (toL ("/d/base.nii.gz")) (List.replicate 32 'a'))).2
      = (split_filename (toL ("/d/base.nii.gz"))).2.1
        ++ ('_' :: '0' :: 'x' :: List.replicate 32 'a')
        ++ (split_filename (toL ("/d/base.nii.gz"))).2.2 ∧
    ∃ ms, check_forhash (StrOrList.str (hash_rename (toL ("/d/base.nii.gz"))
        (List.replicate 32 'a'))) = Except.ok (true, some ms) ∧
      ('_' :: '0' :: 'x' :: List.replicate 32 'a') ∈ ms :=
  c9_hash_roundtrip (toL ("/d/base.nii.gz")) (List.replicate 32 'a')
    (by decide) (by decide)

/-- C5 (amended): `check_forhash` returns true together with the
non-empty list of full matches (each `_0x` + 32-character token) exactly
when the token pattern occurs ANYWHERE in the name component — including
inside the final extension — and `(False, None)` otherwise.  (The
claim's "before the final extension" restriction does not hold, see the
counterexample.) -/
theorem c5_token_detection (f : PyStr) :
    (hasTokP (osSplit f).2 →
      ∃ ms, check_forhash (StrOrList.str f) = Except.ok (true, some ms) ∧
        ms ≠ [] ∧ ∀ m ∈ ms, ∃ t, m = '_' :: '0' :: 'x' :: t ∧
          t.length = 32 ∧ t.all isTokChar = true) ∧
    (¬ hasTokP (osSplit f).2 →
      check_forhash (StrOrList.str f) = Except.ok (false, none)) := by
  constructor
  · intro htk
    have hne : reFindAll (osSplit f).2 ≠ [] := (findAll_ne_nil_iff _).mpr htk
    refine ⟨reFindAll (osSplit f).2, ?_, hne, ?_⟩
    · show Except.ok (check_forhashStr f) = _
      unfold check_forhashStr
      simp only []
      rw [if_neg (by rw [List.isEmpty_iff]; exact hne)]
    · intro m hm
      exact (findAll_sound _ m hm).1
  · intro htk
    have hnil : reFindAll (osSplit f).2 = [] := by
      by_contra hne
      exact htk ((findAll_ne_nil_iff _).mp hne)
    show Except.ok (check_forhashStr f) = _
    unfold check_forhashStr
    simp [hnil]

/-- C5 (counterexample): the name `a._0x` + 32 `a` characters has no
token occurrence before its final extension (the final-extension stem is
just `a`), yet `check_forhash` returns true — the regex scans the whole
name component, extension included. -/
theorem c5_counterexample :
    ¬ tokBeforeFinalExt fDotToken ∧ (check_forhashStr fDotToken).1 = true := by
  constructor
  · intro h
    have h' : hasTokP ((splitext (osSplit fDotToken).2).1) := h
    have hlen := hasTokP_length h'
    have he : ((splitext (osSplit fDotToken).2).1).length = 1 := by decide
    rw [he] at hlen
    omega
  · show (check_forhashStr fDotToken).1 = true
    unfold check_forhashStr
    simp only []
    have hsp : (osSplit fDotToken).2 = fDotToken := by decide
    rw [hsp]
    have he : fDotToken = 'a' :: '.' :: ('_' :: '0' :: 'x' :: List.replicate 32 'a') := by
      decide
    rw [he]
    rw [reFindAll_cons_none (by decide)]
    rw [reFindAll_cons_none (by decide)]
    rw [reFindAll_cons_some (show hashMatchAt ('_' :: '0' :: 'x' :: List.replicate 32 'a')
      = some ('_' :: '0' :: 'x' :: List.replicate 32 'a') by decide)]
    simp

/-- C5 (witness): the detection theorem applied to the spec's concrete
scenario `scan_0x<32 chars>_T1.nii.gz` (true with the match) and
`scan_T1.nii.gz` (false, no token). -/
theorem c5_witness :
    (∃ ms, check_forhash (StrOrList.str fWithTok) = Except.ok (true, some ms) ∧
      ms ≠ [] ∧ ∀ m ∈ ms, ∃ t, m = '_' :: '0' :: 'x' :: t ∧
        t.length = 32 ∧ t.all isTokChar = true) ∧
    check_forhash (StrOrList.str (toL ("scan_T1.nii.gz")))
      = Except.ok (false, none) := by
  constructor
  · refine (c5_token_detection fWithTok).1 ?_
    exact ⟨toL ("scan"), List.replicate 32 'a', toL ("_T1.nii.gz"),
      by decide, by decide, by decide⟩
  · refine (c5_token_detection (toL ("scan_T1.nii.gz"))).2 ?_
    intro h
    have h' := hasTokP_length h
    have he : ((osSplit (toL ("scan_T1.nii.gz"))).2).length = 14 := by decide
    rw [he] at h'
    omega

/-! ## Claim C6: list_to_filename -/

/-- C6 (amended): `list_to_filename` returns the sole element of a
length-1 list and a longer list unchanged, but on the empty list it
evaluates `filelist[0]` and raises IndexError — it is not total. -/
theorem c6_collapse :
    (∀ l : List PyStr, l.length = 1 →
      ∃ x, l = [x] ∧ list_to_filename l = Except.ok (StrOrList.str x)) ∧
    (∀ l : List PyStr, 1 < l.length →
      list_to_filename l = Except.ok (StrOrList.strlist l)) ∧
    list_to_filename ([] : List PyStr) = Except.error PyErr.indexError := by
  refine ⟨?_, ?_, rfl⟩
  · intro l hl
    obtain ⟨x, rfl⟩ := List.length_eq_one.mp hl
    exact ⟨x, rfl, rfl⟩
  · intro l hl
    unfold list_to_filename
    rw [if_pos hl]

/-- C6 (counterexample): the code raises IndexError on the empty list,
where the claim asserts a total function that may return the empty
sequence unchanged. -/
theorem c6_counterexample :
    list_to_filename ([] : List PyStr) = Except.error PyErr.indexError := rfl

/-- C6 (witness): the amended theorem applied to a singleton and a pair. -/
theorem c6_witness :
    (∃ x, ([toL ("a")] : List PyStr) = [x] ∧
      list_to_filename [toL ("a")] = Except.ok (StrOrList.str x)) ∧
    list_to_filename [toL ("a"), toL ("b")]
      = Except.ok (StrOrList.strlist [toL ("a"), toL ("b")]) :=
  ⟨c6_collapse.1 [toL ("a")] rfl, c6_collapse.2.1 [toL ("a"), toL ("b")] (by decide)⟩

/-! ## Claims C2 and C3: copyfile -/

/-- A name ending in `.hdr` does not end in `.img`. -/
theorem endsImg_hdr (xs : PyStr) :
    endsImg (xs ++ ('.' :: 'h' :: 'd' :: 'r' :: [])) = false := by
  simp [endsImg, List.reverse_append]

/-- A name ending in `.mat` does not end in `.img`. -/
theorem endsImg_mat (xs : PyStr) :
    endsImg (xs ++ ('.' :: 'm' :: 'a' :: 't' :: [])) = false := by
  simp [endsImg, List.reverse_append]

/-- C2 (confirmed): whenever the copy branch is taken
(`not (posix and not copy)`) and the underlying `shutil.copyfile` fails
with anything other than `shutil.Error` — permissions, disk full, a
missing source — `copyfile` surfaces exactly that exception to the
caller; it is not swallowed into a warning.  (Only the same-file
`shutil.Error`, a sub-case of "destination already exists", is caught.) -/
theorem c2_copy_failure_surfaced (fs : FileSys) (ioe : IOEnv) (o n : PyStr)
    (copy posix : Bool) (r : IOReason)
    (hbranch : (posix && !copy) = false)
    (hfail : shutilCopyfile fs ioe o n = Except.error (CopyExc.ioError r)) :
    copyfile fs ioe o n copy posix = Except.error (CopyExc.ioError r) := by
  unfold copyfile
  simp only [copyfileF, hbranch, hfail]
  simp

/-- C2 (witness): with every transfer failing disk-full, copying
`a.txt` to `b.txt` surfaces the IOError. -/
theorem c2_witness :
    copyfile fsSrcOnly ioeAllFail (toL ("a.txt")) (toL ("b.txt")) true true
      = Except.error (CopyExc.ioError IOReason.diskFull) :=
  c2_copy_failure_surfaced fsSrcOnly ioeAllFail (toL ("a.txt")) (toL ("b.txt"))
    true true IOReason.diskFull rfl rfl

/-- C3 (counterexample): in link mode (`posix`, `copy = False`) with
`a.img` present but `a.hdr` absent, the operation SUCCEEDS — `os.symlink`
happily creates a dangling `b.hdr` link — where the claim requires a
failure in either mode when the mandatory header is absent. -/
theorem c3_counterexample :
    (copyfile fsImgOnly ioeClean (toL ("a.img")) (toL ("b.img")) false true).isOk
      = true ∧
    fsImgOnly (toL ("a.hdr")) = FsEntry.absent := ⟨rfl, rfl⟩

/-- Successful `shutil.copyfile`: distinct existing source, no fault. -/
theorem shutilCopyfile_ok {fs : FileSys} {ioe : IOEnv} {s d : PyStr}
    (hsame : samefileB fs s d = false) (hex : pathExistsFS fs s = true)
    (hf : ioe.copyFault s d = none) :
    shutilCopyfile fs ioe s d = Except.ok (setEntry fs d FsEntry.file) := by
  unfold shutilCopyfile
  rw [hsame, hex, hf]
  simp

/-- `shutil.copyfile` on a missing source raises the IOError. -/
theorem shutilCopyfile_srcMissing {fs : FileSys} (ioe : IOEnv) {s d : PyStr}
    (hsame : samefileB fs s d = false) (hex : pathExistsFS fs s = false) :
    shutilCopyfile fs ioe s d = Except.error (CopyExc.ioError IOReason.srcMissing) := by
  unfold shutilCopyfile
  rw [hsame, hex]
  simp

/-- `_samefile` is false whenever the source does not exist. -/
theorem samefileB_false_of_not_exists {fs : FileSys} {s : PyStr} (d : PyStr)
    (hex : pathExistsFS fs s = false) : samefileB fs s d = false := by
  unfold samefileB
  rw [hex]
  simp

/-- C3 (amended): placing a `.img` primary file propagates to its
companions, with mode-dependent behaviour on a missing header:

* (copy branch) when the primary copy succeeds, the optional `.mat`
  companion is absent (silently skipped) and the mandatory `.hdr` source
  is absent, the whole operation fails with the missing-source IOError;
* (link mode) under the same absences the operation succeeds, leaving a
  dangling header symlink — it does NOT fail;
* (copy branch) when the header is present and copyable and only the
  optional `.mat` is absent, the operation succeeds without it. -/
theorem c3_img_companions :
    (∀ (fs : FileSys) (ioe : IOEnv) (o n : PyStr) (copy posix : Bool),
      endsImg o = true →
      (posix && !copy) = false →
      samefileB fs o n = false →
      pathExistsFS fs o = true →
      ioe.copyFault o n = none →
      pathExistsFS (setEntry fs n FsEntry.file)
        (o.take (o.length - 4) ++ ('.' :: 'm' :: 'a' :: 't' :: [])) = false →
      pathExistsFS (setEntry fs n FsEntry.file)
        (o.take (o.length - 4) ++ ('.' :: 'h' :: 'd' :: 'r' :: [])) = false →
      copyfile fs ioe o n copy posix
        = Except.error (CopyExc.ioError IOReason.srcMissing)) ∧
    (∀ (fs : FileSys) (ioe : IOEnv) (o n : PyStr),
      endsImg o = true →
      pathExistsFS (setEntry (if lexists fs n then setEntry fs n FsEntry.absent else fs)
          n (FsEntry.symlink o))
        (o.take (o.length - 4) ++ ('.' :: 'm' :: 'a' :: 't' :: [])) = false →
      (copyfile fs ioe o n false true).isOk = true) ∧
    (∀ (fs : FileSys) (ioe : IOEnv) (o n : PyStr) (copy posix : Bool),
      endsImg o = true →
      (posix && !copy) = false →
      samefileB fs o n = false →
      pathExistsFS fs o = true →
      ioe.copyFault o n = none →
      pathExistsFS (setEntry fs n FsEntry.file)
        (o.take (o.length - 4) ++ ('.' :: 'm' :: 'a' :: 't' :: [])) = false →
      pathExistsFS (setEntry fs n FsEntry.file)
        (o.take (o.length - 4) ++ ('.' :: 'h' :: 'd' :: 'r' :: [])) = true →
      ioe.copyFault (o.take (o.length - 4) ++ ('.' :: 'h' :: 'd' :: 'r' :: []))
        (n.take (n.length - 4) ++ ('.' :: 'h' :: 'd' :: 'r' :: [])) = none →
      samefileB (setEntry fs n FsEntry.file)
        (o.take (o.length - 4) ++ ('.' :: 'h' :: 'd' :: 'r' :: []))
        (n.take (n.length - 4) ++ ('.' :: 'h' :: 'd' :: 'r' :: [])) = false →
      (copyfile fs ioe o n copy posix).isOk = true) := by
  refine ⟨?_, ?_, ?_⟩
  · intro fs ioe o n copy posix himg hbranch hsame hexist hfault hmat hhdr
    have hshut1 := shutilCopyfile_ok hsame hexist hfault
    have hsame2 := samefileB_false_of_not_exists
      (n.take (n.length - 4) ++ ('.' :: 'h' :: 'd' :: 'r' :: [])) hhdr
    have hshut2 := shutilCopyfile_srcMissing ioe hsame2 hhdr
    unfold copyfile
    simp only [copyfileF]
    simp [hbranch, himg, hshut1, hmat, hshut2, endsImg_hdr]
  · intro fs ioe o n himg hmat
    unfold copyfile
    simp only [copyfileF]
    simp [himg, hmat, endsImg_hdr, Except.isOk, Except.toBool]
  · intro fs ioe o n copy posix himg hbranch hsame hexist hfault hmat hhdr hfault2 hsame2
    have hshut1 := shutilCopyfile_ok hsame hexist hfault
    have hshut2 := shutilCopyfile_ok hsame2 hhdr hfault2
    unfold copyfile
    simp only [copyfileF]
    simp [hbranch, himg, hshut1, hmat, hshut2, endsImg_hdr, Except.isOk, Except.toBool]

/-- C3 (witness): the amended theorem applied to `a.img` → `b.img`
(header absent: copy mode fails, link mode succeeds) and on a source
with `a.hdr` present and `a.mat` absent (copy mode succeeds). -/
theorem c3_witness :
    copyfile fsImgOnly ioeClean (toL ("a.img")) (toL ("b.img")) true true
      = Except.error (CopyExc.ioError IOReason.srcMissing) ∧
    (copyfile fsImgOnly ioeClean (toL ("a.img")) (toL ("b.img")) false true).isOk
      = true ∧
    (copyfile fsImgHdr ioeClean (toL ("a.img")) (toL ("b.img")) true true).isOk
      = true :=
  ⟨c3_img_companions.1 fsImgOnly ioeClean (toL ("a.img")) (toL ("b.img")) true true
      (by decide) rfl (by decide) (by decide) rfl (by decide) (by decide),
   c3_img_companions.2.1 fsImgOnly ioeClean (toL ("a.img")) (toL ("b.img"))
      (by decide) (by decide),
   c3_img_companions.2.2 fsImgHdr ioeClean (toL ("a.img")) (toL ("b.img")) true true
      (by decide) rfl (by decide) (by decide) rfl (by decide) (by decide) rfl
      (by decide)⟩
